import Mathlib

/-!
Verification development for the BlueSync test-case-generation dashboard
(frontend sources: `TestCaseGeneration.tsx`, `Dashboard.tsx` — which also
carries the `ComplianceReports` component and the `apiService` client —
and `IntegrationHub.tsx`).

The TypeScript functions named in the claims are embedded shallowly below:
pure formatting helpers become Lean functions over `List Char` / `String`,
the stateful handlers become explicit state-transition functions, and the
network-facing handlers become functions from an abstract outcome (success
payload or thrown error) to the resulting state or emitted call trace.
JavaScript machine details that are irrelevant to the claims are modelled
at the granularity noted in each doc comment (for example, JSON numbers are
kept as their validated source literal instead of IEEE-754 doubles).
-/

namespace BlueSync

/-! ## Character-level helpers shared by the formatting utilities -/

/-- Model of the JavaScript `\d` character class (ASCII decimal digits),
as used by the regex in `formatDescriptionSmart`. -/
def isDigitChar (c : Char) : Bool := c.isDigit

/-- Model of the JavaScript `\s` character class and of the character set
removed by `String.prototype.trim` (the ASCII whitespace forms; the
additional Unicode space code points accepted by JavaScript are outside the
inputs the claims quantify over). -/
def isWsChar (c : Char) : Bool :=
  c = ' ' || c = '\t' || c = '\n' || c = '\r' || c = '\x0b' || c = '\x0c'

/-- Drop trailing characters satisfying `p` (helper for `trimChars`). -/
def dropTrailing (p : Char → Bool) (l : List Char) : List Char :=
  (l.reverse.dropWhile p).reverse

/-- Model of JavaScript `String.prototype.trim` on the character list of a
string: removes leading and trailing whitespace. -/
def trimChars (l : List Char) : List Char :=
  dropTrailing isWsChar (l.dropWhile isWsChar)

/-- Model of JavaScript `desc.split('\n')` on character lists: splits at
every newline, keeping empty segments (e.g. `"a\n"` yields `["a", ""]`). -/
def splitLines : List Char → List (List Char)
  | [] => [[]]
  | c :: rest =>
    if c = '\n' then [] :: splitLines rest
    else
      match splitLines rest with
      | [] => [[c]]
      | l :: ls => (c :: l) :: ls

/-! ## The numbered-step scanner of `formatDescriptionSmart`

`TestCaseGeneration.tsx` runs the global regex
`/\d+\.\s([^\d]+)(?=(?:\d+\.|$))/g` over the description with `exec` in a
loop, collecting `match[1].trim()`.  Because the capture class `[^\d]+`
cannot cross a digit and the lookahead only succeeds at a digit run that is
followed by `'.'` (or at the end of input), backtracking never produces a
shorter capture than the maximal non-digit run; a match attempt at a
position therefore either takes the shapes computed by `tryMatchAt` below
or fails, and `exec` then retries from the next position, exactly as
`scanAux` does. -/

/-- One attempt of the regex `\d+\.\s([^\d]+)(?=(?:\d+\.|$))` anchored at
the start of `s`.  Returns the capture (untrimmed) and the remainder of the
input after the match (the lookahead is zero-width), or `none` when the
regex cannot match at this position. -/
def tryMatchAt (s : List Char) : Option (List Char × List Char) :=
  let ds := s.takeWhile isDigitChar
  let r1 := s.dropWhile isDigitChar
  if ds.isEmpty then none
  else
    match r1 with
    | '.' :: c :: r2 =>
      if isWsChar c then
        let cap := r2.takeWhile (fun ch => !isDigitChar ch)
        let r3 := r2.dropWhile (fun ch => !isDigitChar ch)
        if cap.isEmpty then none
        else
          match r3 with
          | [] => some (cap, [])
          | _ :: _ =>
            let ds2 := r3.takeWhile isDigitChar
            let r4 := r3.dropWhile isDigitChar
            if ds2.isEmpty then none
            else
              match r4 with
              | '.' :: _ => some (cap, r3)
              | _ => none
      else none
    | _ => none

/-- Fuel-indexed scanner: repeatedly `exec` the regex, collecting the
trimmed captures.  On a successful match the scan resumes at the end of the
match; otherwise it advances one character, as the JavaScript regex engine
does when searching for the next match position.  `fuel` only needs to be
at least the input length (each step strictly shrinks the input). -/
def scanAux : Nat → List Char → List (List Char)
  | 0, _ => []
  | fuel + 1, l =>
    match tryMatchAt l with
    | some (cap, after) => trimChars cap :: scanAux fuel after
    | none =>
      match l with
      | [] => []
      | _ :: cs => scanAux fuel cs

/-- All trimmed captures of the numbered-step regex over the input. -/
def scanMatches (l : List Char) : List (List Char) := scanAux l.length l

/-- Result of rendering a description: either an ordered list of items or a
single paragraph (abstracting the produced `<ol>`/`<p>` React nodes). -/
inductive RenderedDesc where
  | orderedList : List String → RenderedDesc
  | paragraph : String → RenderedDesc
deriving DecidableEq

/-- Embedding of `formatDescription` (`TestCaseGeneration.tsx`): split the
description on newlines, keep the lines that are non-blank after trimming
(the JavaScript filter keeps lines whose trimmed form is truthy), and
render them as an ordered list when more than one survives, otherwise the
whole description as a single paragraph. -/
def formatDescription (desc : String) : RenderedDesc :=
  let steps := (splitLines desc.data).filter (fun line => !(trimChars line).isEmpty)
  if steps.length > 1 then
    RenderedDesc.orderedList (steps.map (fun l => String.mk l))
  else
    RenderedDesc.paragraph desc

/-- Embedding of `formatDescriptionSmart` (`TestCaseGeneration.tsx`): if
the numbered-step regex finds at least one match, render the trimmed
captures as an ordered list; otherwise fall back to `formatDescription`. -/
def formatDescriptionSmart (desc : String) : RenderedDesc :=
  let ms := scanMatches desc.data
  if ms.isEmpty then formatDescription desc
  else RenderedDesc.orderedList (ms.map (fun l => String.mk l))

/-! ## Builder for descriptions of the claimed numbered form -/

/-- Characters of one `"N. content"` segment. -/
def segChars (seg : String × String) : List Char :=
  seg.1.data ++ '.' :: ' ' :: seg.2.data

/-- Characters of a whole numbered description: segments joined by a single
space, i.e. the form `"1. a 2. b 3. c"`. -/
def segsChars : List (String × String) → List Char
  | [] => []
  | [seg] => segChars seg
  | seg :: rest => segChars seg ++ ' ' :: segsChars rest

/-- A description string of the form `"1. a 2. b 3. c"`: one or more
segments, each a number followed by a period, a space and content, joined
by single spaces. -/
def mkNumberedDesc (segs : List (String × String)) : String :=
  String.mk (segsChars segs)

/-- Well-formedness of the number part of one segment `(number, content)`:
a non-empty digit string (`contentClean` below constrains the content
part). -/
def segNumberOk (seg : String × String) : Prop :=
  seg.1.data ≠ [] ∧ seg.1.data.all isDigitChar = true

/-- The restriction on segment content under which the scanner recovers it
exactly: non-empty, digit-free, and already trimmed. -/
def contentClean (seg : String × String) : Prop :=
  seg.2.data ≠ [] ∧ seg.2.data.all (fun ch => !isDigitChar ch) = true ∧
    trimChars seg.2.data = seg.2.data

instance (seg : String × String) : Decidable (segNumberOk seg) :=
  inferInstanceAs (Decidable (_ ∧ _))

instance (seg : String × String) : Decidable (contentClean seg) :=
  inferInstanceAs (Decidable (_ ∧ _ ∧ _))

/-! ## JSON model for `formatInputData` and the API client

`formatInputData` is `JSON.parse` followed by `JSON.stringify(obj, null, 2)`
with the original string returned on parse failure.  The JSON value tree is
embedded as a mutual inductive (lists are fused into the type so that all
recursion stays structural and kernel-reducible).  Two JavaScript details
are abstracted: numbers are kept as their validated source literal rather
than IEEE-754 doubles, and string payloads are kept as their validated
source escape form rather than decoded UTF-16 (so re-serialization prints
the literal back; object keys are likewise compared in source form). -/

mutual
inductive Json where
  | null : Json
  | bool : Bool → Json
  | num : List Char → Json
  | str : List Char → Json
  | arr : JsonArr → Json
  | obj : JsonObj → Json
deriving DecidableEq
inductive JsonArr where
  | nil : JsonArr
  | cons : Json → JsonArr → JsonArr
deriving DecidableEq
inductive JsonObj where
  | nil : JsonObj
  | cons : List Char → Json → JsonObj → JsonObj
deriving DecidableEq
end

/-- JSON insignificant whitespace (`ws` of ECMA-404 / `JSON.parse`). -/
def isJsonWs (c : Char) : Bool := c = ' ' || c = '\t' || c = '\n' || c = '\r'

/-- Hexadecimal digit, for `\uXXXX` escapes. -/
def isHexChar (c : Char) : Bool :=
  c.isDigit || ('a' ≤ c && c ≤ 'f') || ('A' ≤ c && c ≤ 'F')

/-- Skip insignificant whitespace. -/
def skipWs (l : List Char) : List Char := l.dropWhile isJsonWs

/-- Scan the escaped body of a JSON string literal up to its closing quote,
validating escapes; returns the body in source (still escaped) form and the
input after the closing quote. -/
def scanStringBody : Nat → List Char → Option (List Char × List Char)
  | 0, _ => none
  | _ + 1, [] => none
  | fuel + 1, c :: rest =>
    if c = '"' then some ([], rest)
    else if c = '\\' then
      match rest with
      | [] => none
      | e :: rest2 =>
        if e = '"' || e = '\\' || e = '/' || e = 'b' || e = 'f' ||
            e = 'n' || e = 'r' || e = 't' then
          match scanStringBody fuel rest2 with
          | some (body, rem) => some (c :: e :: body, rem)
          | none => none
        else if e = 'u' then
          match rest2 with
          | h1 :: h2 :: h3 :: h4 :: rest3 =>
            if isHexChar h1 && isHexChar h2 && isHexChar h3 && isHexChar h4 then
              match scanStringBody fuel rest3 with
              | some (body, rem) => some (c :: e :: h1 :: h2 :: h3 :: h4 :: body, rem)
              | none => none
            else none
          | _ => none
        else none
    else if c.toNat < 32 then none
    else
      match scanStringBody fuel rest with
      | some (body, rem) => some (c :: body, rem)
      | none => none

/-- Scan a JSON number literal (`-? int frac? exp?`), returning it in source
form together with the rest of the input. -/
def scanNumber (l : List Char) : Option (List Char × List Char) :=
  let (neg, l1) :=
    match l with
    | '-' :: t => (['-'], t)
    | _ => (([] : List Char), l)
  match l1 with
  | [] => none
  | d :: _ =>
    if !d.isDigit then none
    else
      let intPart :=
        if d = '0' then ['0'] else l1.takeWhile Char.isDigit
      let l2 := if d = '0' then l1.tail else l1.dropWhile Char.isDigit
      let (fracPart, l3) :=
        match l2 with
        | '.' :: t =>
          match t with
          | e :: _ =>
            if e.isDigit then ('.' :: t.takeWhile Char.isDigit, t.dropWhile Char.isDigit)
            else (([] : List Char), l2)
          | [] => (([] : List Char), l2)
        | _ => (([] : List Char), l2)
      if fracPart.isEmpty && (match l2 with | '.' :: _ => true | _ => false) then none
      else
        let expOpt : Option (List Char × List Char) :=
          match l3 with
          | e :: t =>
            if e = 'e' || e = 'E' then
              let (sign, t1) :=
                match t with
                | s :: t1' => if s = '+' || s = '-' then ([s], t1') else (([] : List Char), t)
                | [] => (([] : List Char), t)
              match t1 with
              | d2 :: _ =>
                if d2.isDigit then
                  some (e :: sign ++ t1.takeWhile Char.isDigit, t1.dropWhile Char.isDigit)
                else none
              | [] => none
            else some (([] : List Char), l3)
          | [] => some (([] : List Char), l3)
        match expOpt with
        | none => none
        | some (ep, l5) => some (neg ++ intPart ++ fracPart ++ ep, l5)

/-- Insert a key/value pair into an object as JavaScript property
assignment does for duplicate keys: a later value overwrites in place, a
new key is appended at the end. -/
def objInsert (k : List Char) (v : Json) : JsonObj → JsonObj
  | JsonObj.nil => JsonObj.cons k v JsonObj.nil
  | JsonObj.cons k' v' rest =>
    if k' = k then JsonObj.cons k' v rest
    else JsonObj.cons k' v' (objInsert k v rest)

/-- Build the final object from a member sequence left to right with the
JavaScript duplicate-key rule applied by `objInsert`. -/
def buildObj (acc : JsonObj) : JsonObj → JsonObj
  | JsonObj.nil => acc
  | JsonObj.cons k v rest => buildObj (objInsert k v acc) rest

mutual
/-- Parse one JSON value at the head of the input (leading whitespace
already skipped); returns the value and the unconsumed input. -/
def parseValue : Nat → List Char → Option (Json × List Char)
  | 0, _ => none
  | fuel + 1, l =>
    match l with
    | [] => none
    | c :: rest =>
      if c = 'n' then
        match rest with
        | 'u' :: 'l' :: 'l' :: r => some (Json.null, r)
        | _ => none
      else if c = 't' then
        match rest with
        | 'r' :: 'u' :: 'e' :: r => some (Json.bool true, r)
        | _ => none
      else if c = 'f' then
        match rest with
        | 'a' :: 'l' :: 's' :: 'e' :: r => some (Json.bool false, r)
        | _ => none
      else if c = '"' then
        match scanStringBody (rest.length + 1) rest with
        | some (body, rem) => some (Json.str body, rem)
        | none => none
      else if c = '[' then
        match skipWs rest with
        | ']' :: r => some (Json.arr JsonArr.nil, r)
        | r2 =>
          match parseElems fuel r2 with
          | some (elems, rem) => some (Json.arr elems, rem)
          | none => none
      else if c = '\x7b' then
        match skipWs rest with
        | '\x7d' :: r => some (Json.obj JsonObj.nil, r)
        | r2 =>
          match parseMembers fuel r2 with
          | some (fields, rem) => some (Json.obj (buildObj JsonObj.nil fields), rem)
          | none => none
      else
        match scanNumber l with
        | some (lit, rem) => some (Json.num lit, rem)
        | none => none

/-- Parse one-or-more comma-separated array elements followed by `]`. -/
def parseElems : Nat → List Char → Option (JsonArr × List Char)
  | 0, _ => none
  | fuel + 1, l =>
    match parseValue fuel l with
    | none => none
    | some (v, rem) =>
      match skipWs rem with
      | ',' :: r2 =>
        match parseElems fuel (skipWs r2) with
        | some (elems, rem2) => some (JsonArr.cons v elems, rem2)
        | none => none
      | ']' :: r2 => some (JsonArr.cons v JsonArr.nil, r2)
      | _ => none

/-- Parse one-or-more comma-separated `"key": value` members followed by
the closing brace, in source order (duplicate keys still separate here). -/
def parseMembers : Nat → List Char → Option (JsonObj × List Char)
  | 0, _ => none
  | fuel + 1, l =>
    match l with
    | '"' :: rest =>
      match scanStringBody (rest.length + 1) rest with
      | none => none
      | some (key, rem) =>
        match skipWs rem with
        | ':' :: r2 =>
          match parseValue fuel (skipWs r2) with
          | none => none
          | some (v, rem2) =>
            match skipWs rem2 with
            | ',' :: r3 =>
              match parseMembers fuel (skipWs r3) with
              | some (fields, rem3) => some (JsonObj.cons key v fields, rem3)
              | none => none
            | '\x7d' :: r3 => some (JsonObj.cons key v JsonObj.nil, r3)
            | _ => none
        | _ => none
    | _ => none
end

/-- Model of `JSON.parse` on a whole input string: leading and trailing
whitespace allowed around exactly one value. -/
def jsonParse (s : String) : Option Json :=
  let l := skipWs s.data
  match parseValue (l.length + 1) l with
  | some (v, rem) => if (skipWs rem).isEmpty then some v else none
  | none => none

mutual
/-- Model of `JSON.stringify(v, null, 2)` at nesting indentation `ind`
(characters emitted; the top-level call uses `ind = 0`). -/
def renderJson (ind : Nat) : Json → List Char
  | Json.null => "null".data
  | Json.bool true => "true".data
  | Json.bool false => "false".data
  | Json.num lit => lit
  | Json.str body => '"' :: body ++ ['"']
  | Json.arr JsonArr.nil => "[]".data
  | Json.arr a => '[' :: renderArr (ind + 2) a ++ '\n' :: List.replicate ind ' ' ++ [']']
  | Json.obj JsonObj.nil => "\x7b\x7d".data
  | Json.obj o => '\x7b' :: renderObj (ind + 2) o ++ '\n' :: List.replicate ind ' ' ++ ['\x7d']

/-- Array items: each on its own line at indentation `ind`, separated by
commas. -/
def renderArr (ind : Nat) : JsonArr → List Char
  | JsonArr.nil => []
  | JsonArr.cons v rest =>
    '\n' :: List.replicate ind ' ' ++ renderJson ind v ++
      (match rest with | JsonArr.nil => [] | JsonArr.cons _ _ => [',']) ++
      renderArr ind rest

/-- Object members: each `"key": value` on its own line at indentation
`ind`, separated by commas. -/
def renderObj (ind : Nat) : JsonObj → List Char
  | JsonObj.nil => []
  | JsonObj.cons k v rest =>
    '\n' :: List.replicate ind ' ' ++ '"' :: k ++ '"' :: ':' :: ' ' :: renderJson ind v ++
      (match rest with | JsonObj.nil => [] | JsonObj.cons _ _ _ => [',']) ++
      renderObj ind rest
end

/-- Model of `JSON.stringify(obj, null, 2)` as a whole string. -/
def jsonStringify2 (v : Json) : String := String.mk (renderJson 0 v)

/-- Embedding of `formatInputData` (`TestCaseGeneration.tsx`): try to parse
the input as JSON and re-serialize with 2-space indentation; on parse
failure return the input unchanged. -/
def formatInputData (input : String) : String :=
  match jsonParse input with
  | some obj => jsonStringify2 obj
  | none => input

/-! ## The API client (`apiService` in the services module bundled with
`Dashboard.tsx`)

Each remote operation performs one `fetch` and inspects `response.ok`
(status 200–299).  The HTTP exchange is embedded as a function from the
received response to an outcome: the parsed JSON body on success, a thrown
`Error` message, or the engine-specific `SyntaxError` from `response.json()`
on a 2xx response whose body is not valid JSON. -/

structure HttpResponse where
  status : Nat
  statusText : String
  body : String
deriving DecidableEq

/-- Model of `response.ok` from the fetch API. -/
def respOk (r : HttpResponse) : Bool := 200 ≤ r.status && r.status ≤ 299

/-- Outcome of one API-client operation. -/
inductive ApiOutcome where
  | success : Json → ApiOutcome
  | thrown : String → ApiOutcome
  | jsonSyntaxError : ApiOutcome
deriving DecidableEq

/-- Shared success path: `return await response.json()`. -/
def parsedBody (r : HttpResponse) : ApiOutcome :=
  match jsonParse r.body with
  | some v => ApiOutcome.success v
  | none => ApiOutcome.jsonSyntaxError

/-- The operations of `apiService` that perform an HTTP call.  The three
mock operations (`getProcessingStatus`, `generateTestCases`,
`getGeneratedTestCases`) perform no call and are outside this model, and
`getExtractedRequirements` only delegates to `extractFeatures`. -/
inductive ApiOp where
  | pushToJira
  | uploadDocument
  | extractFeatures
  | getUploadedFiles
  | getRequirements
  | generateTestCasesForRequirement
  | getTestCases
  | getTestCasesByFile
  | generateTestCasesForFile
  | improveTestCase
  | getComplianceMetrics
deriving DecidableEq

/-- The fixed message text an operation places in front of
`response.statusText` when it throws, for the operations that do so. -/
def statusTextMsgHead : ApiOp → Option String
  | ApiOp.uploadDocument => some "Upload failed: "
  | ApiOp.extractFeatures => some "Feature extraction failed: "
  | ApiOp.getUploadedFiles => some "Failed to fetch files: "
  | ApiOp.getRequirements => some "Failed to fetch requirements: "
  | ApiOp.generateTestCasesForRequirement => some "Failed to generate test cases: "
  | ApiOp.getTestCases => some "Failed to fetch test cases: "
  | ApiOp.getTestCasesByFile => some "Failed to fetch test cases for file: "
  | ApiOp.generateTestCasesForFile => some "Failed to generate test cases for file: "
  | ApiOp.getComplianceMetrics => some "Failed to fetch compliance metrics: "
  | _ => none

/-- Fallback message of `pushToJira`. -/
def pushToJiraFallback : String := "Failed to push test cases to Jira."

/-- Whether a JSON number literal denotes zero: every mantissa digit (the
part before any exponent marker) is `0`, whatever the sign or exponent. -/
def jsNumZero (lit : List Char) : Bool :=
  (lit.takeWhile (fun c => !(c = 'e' || c = 'E'))).all
    (fun c => !c.isDigit || c = '0')

/-- JavaScript truthiness of a JSON value: `null`, `false`, a zero number
and the empty string are falsy; every other value — including empty arrays
and objects — is truthy. -/
def jsTruthy : Json → Bool
  | Json.null => false
  | Json.bool b => b
  | Json.num lit => !jsNumZero lit
  | Json.str s => !s.isEmpty
  | Json.arr _ => true
  | Json.obj _ => true

mutual
/-- JavaScript `String(v)` coercion of a JSON value, as `new Error(v)`
applies to a non-string message: booleans and `null` print their keyword,
numbers print their literal (the IEEE-754 re-formatting is the same
declared machine-detail abstraction as in the JSON model, and string
payloads stay in validated source escape form), arrays join their
elements with commas (`null` elements become empty), and plain objects
print `[object Object]`. -/
def jsToString : Json → List Char
  | Json.null => "null".data
  | Json.bool true => "true".data
  | Json.bool false => "false".data
  | Json.num lit => lit
  | Json.str s => s
  | Json.arr a => jsArrToString a
  | Json.obj _ => "[object Object]".data

/-- `Array.prototype.toString`, i.e. `join(',')`: comma-separated element
coercions, with `null` elements contributing the empty string. -/
def jsArrToString : JsonArr → List Char
  | JsonArr.nil => []
  | JsonArr.cons v rest =>
    (match v with
     | Json.null => []
     | v' => jsToString v') ++
    (match rest with
     | JsonArr.nil => []
     | JsonArr.cons _ _ => ',' :: jsArrToString rest)
end

/-- Look up the `detail` member of a parsed JSON object (property access
`errData.detail`; parsing has already collapsed duplicate keys). -/
def detailField : JsonObj → Option Json
  | JsonObj.nil => none
  | JsonObj.cons k v rest =>
    if k = "detail".data then some v else detailField rest

/-- The message `pushToJira` throws on a non-2xx response, embedding the
catch-guarded `errData.detail || errorMsg` fed to `new Error`: when the
body parses as a JSON object carrying a truthy `detail` member, that value
coerced to a string; otherwise — parse failure, non-object body (where the
property access yields `undefined` or throws on `null`, both caught), a
missing member, or a falsy `detail` — the fixed fallback. -/
def pushToJiraMessage (body : String) : String :=
  match jsonParse body with
  | some (Json.obj fields) =>
    match detailField fields with
    | some v => if jsTruthy v then String.mk (jsToString v) else pushToJiraFallback
    | none => pushToJiraFallback
  | _ => pushToJiraFallback

/-- Embedding of one `apiService` operation applied to the HTTP response it
received. -/
def runApiOp (op : ApiOp) (r : HttpResponse) : ApiOutcome :=
  if respOk r then parsedBody r
  else
    match op with
    | ApiOp.pushToJira =>
      ApiOutcome.thrown (pushToJiraMessage r.body)
    | ApiOp.improveTestCase =>
      ApiOutcome.thrown "Failed to improve test case"
    | other =>
      ApiOutcome.thrown (((statusTextMsgHead other).getD "") ++ r.statusText)

/-! ## Display sorting of grouped test cases (`sortedTestCases`)

`TestCaseGeneration.tsx` sorts a copy of the grouped requirements with
`(a, b) => a.req_title_id < b.req_title_id ? -1 : a.req_title_id > b.req_title_id ? 1 : 0`
and each group's test cases with the analogous comparator on `tc_id`.
JavaScript string `<` compares UTF-16 code units lexicographically, which
for the scalar-value strings the UI handles coincides with code-point
order; `strLtB` below is that comparison.  `Array.prototype.sort` is
required to be stable and the comparator is consistent with a total order,
so its output is the unique stable sorted permutation, which the insertion
sort `sortByKey` computes. -/

/-- Code-unit comparison of two characters (as JavaScript `<` on one-char
strings). -/
def charLtB (a b : Char) : Bool := a.toNat < b.toNat

/-- Lexicographic string comparison, as JavaScript `<` on strings. -/
def strLtB : List Char → List Char → Bool
  | [], [] => false
  | [], _ :: _ => true
  | _ :: _, [] => false
  | a :: as, b :: bs =>
    if charLtB a b then true
    else if charLtB b a then false
    else strLtB as bs

/-- String comparison on `String`s. -/
def jsStrLt (a b : String) : Bool := strLtB a.data b.data

/-- One test case as rendered by the generation screen. -/
structure TestCase where
  tc_id : String
  tc_title : String
  tc_description : String
  expected_result : String
  input_data : String
  compliance_tags : String
  risk : String
  created_at : String
deriving DecidableEq

/-- One grouped requirement returned by the test-cases-by-file endpoint. -/
structure GroupedRequirement where
  requirement_id : String
  req_title_id : String
  req_title : String
  requirement_description : String
  test_cases : List TestCase
deriving DecidableEq

/-- Stable insertion keyed by a string projection: the new element is
placed before the first strictly greater key, hence after every
equal-keyed element already present. -/
def insertByKey (key : α → String) (x : α) : List α → List α
  | [] => [x]
  | y :: ys =>
    if jsStrLt (key x) (key y) then x :: y :: ys
    else y :: insertByKey key x ys

/-- Stable sort by a string key: the unique output of a stable comparison
sort with the source's three-way comparator. -/
def sortByKey (key : α → String) (l : List α) : List α :=
  l.foldl (fun acc x => insertByKey key x acc) []

/-- Sort one group's test cases by `tc_id`. -/
def sortGroupTestCases (req : GroupedRequirement) : GroupedRequirement :=
  { req with test_cases := sortByKey (fun tc => tc.tc_id) req.test_cases }

/-- Embedding of `sortedTestCases` (`TestCaseGeneration.tsx`): groups
sorted ascending by `req_title_id`, then each group's test cases sorted
ascending by `tc_id`. -/
def sortedTestCases (gs : List GroupedRequirement) : List GroupedRequirement :=
  (sortByKey (fun g => g.req_title_id) gs).map sortGroupTestCases

/-! ## Sequential generation for selected requirements
(`handleGenerateForRequirements`) -/

/-- One API call issued by the specific-requirements generation flow. -/
inductive GenEvent where
  | genReq : String → GenEvent
  | refetch : String → GenEvent
deriving DecidableEq

/-- The `for … await` loop over the selected requirement ids followed by
the single refetch.  `ok reqId` tells whether the generation call for
`reqId` resolves; a rejected call is still issued, and the `catch` skips
everything after it, including the refetch. -/
def runGenLoop (ok : String → Bool) (fileId : String) : List String → List GenEvent
  | [] => [GenEvent.refetch fileId]
  | r :: rs =>
    GenEvent.genReq r :: (if ok r then runGenLoop ok fileId rs else [])

/-- Embedding of `handleGenerateForRequirements` as the trace of API calls
it issues: nothing when the selection is empty (the handler errors out
before any call), otherwise one generation call per selected requirement in
order, then the refetch, cut short at the first rejected call. -/
def handleGenerateForRequirements (ok : String → Bool) (fileId : String)
    (sel : List String) : List GenEvent :=
  if sel.isEmpty then [] else runGenLoop ok fileId sel

/-! ## The improve-modal session (`handleImproveSubmit`,
`handleCloseImproveModal`) -/

/-- Outcome of one submit inside the improve modal: the improve call either
rejects (the `catch` leaves `improvedDescription` unchanged) or resolves
with the returned `improved_description`. -/
inductive SubmitOutcome where
  | failure : SubmitOutcome
  | success : String → SubmitOutcome
deriving DecidableEq

/-- One API call issued during a modal session. -/
inductive ImproveEvent where
  | improveCall : ImproveEvent
  | refetchCall : ImproveEvent
deriving DecidableEq

/-- The `improvedDescription` state after the submits of one modal session
(opening the modal resets it to the empty string; each successful submit
overwrites it). -/
def improvedAfter (outcomes : List SubmitOutcome) : String :=
  outcomes.foldl
    (fun acc o => match o with | SubmitOutcome.failure => acc | SubmitOutcome.success d => d)
    ""

/-- Whether `handleCloseImproveModal` refetches: the truthiness test
`if (improvedDescription)`. -/
def closeRefetches (outcomes : List SubmitOutcome) : Bool :=
  improvedAfter outcomes != ""

/-- The API calls of a whole modal session: one improve call per submit
(submitting never refetches) and, on close, the refetch exactly when an
improved description is present. -/
def improveSessionTrace (outcomes : List SubmitOutcome) : List ImproveEvent :=
  outcomes.map (fun _ => ImproveEvent.improveCall) ++
    (if closeRefetches outcomes then [ImproveEvent.refetchCall] else [])

/-! ## The reports screen's compliance-tag filter (`filteredTestCases` in
`ComplianceReports`) -/

/-- A test case as the reports screen sees it (`compliance_tags` is an
array there). -/
structure ReportTestCase where
  tc_id : String
  tc_title : String
  risk : String
  compliance_tags : List String
  req_title : String
  tc_description : String
  expected_result : String
  input_data : String
  created_at : String
deriving DecidableEq

/-- Embedding of `filteredTestCases` (`ComplianceReports`): keep every test
case when no tag is selected, otherwise keep a test case exactly when some
of its tags is selected. -/
def filteredTestCases (complianceFilter : List String) (tcs : List ReportTestCase) :
    List ReportTestCase :=
  tcs.filter (fun tc =>
    if complianceFilter.isEmpty then true
    else tc.compliance_tags.any (fun tag => complianceFilter.elem tag))

/-! ## The integration screen (`IntegrationHub.tsx`) -/

/-- The four screen states of the push flow. -/
inductive JiraStatus where
  | idle
  | loading
  | success
  | error
deriving DecidableEq

/-- The local state `jiraStatus` / `jiraMessage` / `jiraCount`. -/
structure IntegrationState where
  status : JiraStatus
  message : String
  count : Option Nat
deriving DecidableEq

/-- Initial state of the integration screen. -/
def initialIntegrationState : IntegrationState :=
  { status := JiraStatus.idle, message := "", count := none }

/-- The response shape `handlePushToJira` reads from a resolved push. -/
structure PushResponse where
  pushed_count : Option Nat
  message : Option String
deriving DecidableEq

/-- Start of `handlePushToJira`: with no file selected the handler returns
without touching state; otherwise it enters the loading state and clears
message and count. -/
def startPush (s : IntegrationState) (selectedFileId : String) : IntegrationState :=
  if selectedFileId = "" then s
  else { status := JiraStatus.loading, message := "", count := none }

/-- Default success message (`result.message || …`). -/
def pushSuccessDefault : String := "Successfully pushed test cases to Jira."

/-- Default error message (`err?.message || …`). -/
def pushErrorDefault : String := "Failed to push test cases to Jira."

/-- Resolution of `handlePushToJira`: the settled push call maps to the
success state (count via `result.pushed_count || null`, so an absent or
zero count becomes `null`) or to the error state carrying the thrown
message (defaulted when empty). -/
def resolvePush (outcome : Except String PushResponse) : IntegrationState :=
  match outcome with
  | Except.ok r =>
    { status := JiraStatus.success
      message :=
        match r.message with
        | some m => if m = "" then pushSuccessDefault else m
        | none => pushSuccessDefault
      count :=
        match r.pushed_count with
        | some n => if n = 0 then none else some n
        | none => none }
  | Except.error m =>
    { status := JiraStatus.error
      message := if m = "" then pushErrorDefault else m
      count := none }

/-- The status line the component renders below the button in each state
(`loading` renders only the spinner, no status line). -/
def renderStatusLine (s : IntegrationState) : Option String :=
  match s.status with
  | JiraStatus.idle =>
    some "Select a document and click push to send test cases to Jira."
  | JiraStatus.loading => none
  | JiraStatus.success =>
    some ("Successfully pushed " ++
      (match s.count with | some n => toString n | none => "") ++
      " test cases to Jira.")
  | JiraStatus.error => some s.message

/-- Substring test used to state what a rendered line does or does not
display. -/
def strContains (hay needle : String) : Bool :=
  (List.range (hay.data.length + 1)).any
    (fun i => needle.data.isPrefixOf (hay.data.drop i))

/-! ## Requirement selection (`handleRequirementToggle`,
`handleSelectAllRequirements`) -/

/-- One selection action on the generation screen. -/
inductive SelOp where
  | toggle : String → SelOp
  | selectAll : List String → SelOp

/-- Embedding of the two selection handlers: toggling removes a present id
(filtering it out) and appends an absent one; select-all clears the
selection when its length already equals the requirement count and
otherwise replaces it with all fetched requirement ids. -/
def applySelOp (sel : List String) : SelOp → List String
  | SelOp.toggle id => if sel.elem id then sel.filter (fun rid => rid ≠ id) else sel ++ [id]
  | SelOp.selectAll reqIds => if sel.length = reqIds.length then [] else reqIds

/-- The selection after a sequence of actions, starting from the empty
selection of the initial state. -/
def runSelOps (ops : List SelOp) : List String :=
  ops.foldl applySelOp []

/-! ## Concrete values used to instantiate the theorems -/

/-- The message thrown on a non-2xx response, by operation: the coerced
truthy `detail` member (with fixed fallback) for `pushToJira`, a fixed
constant for `improveTestCase`, and a fixed text followed by the status
text for the rest. -/
def thrownMessage (op : ApiOp) (r : HttpResponse) : String :=
  match op with
  | ApiOp.pushToJira => pushToJiraMessage r.body
  | ApiOp.improveTestCase => "Failed to improve test case"
  | other => ((statusTextMsgHead other).getD "") ++ r.statusText

/-- A concrete 500 response whose JSON body carries a `detail` field. -/
def respJira500 : HttpResponse :=
  { status := 500
    statusText := "Internal Server Error"
    body := "\x7b\"detail\": \"boom\"\x7d" }

/-- The parsed body of `respJira500`. -/
def detailBoomJson : Json :=
  Json.obj (JsonObj.cons "detail".data (Json.str "boom".data) JsonObj.nil)

/-- A 422 response whose JSON body carries a numeric `detail` member. -/
def respDetailNum : HttpResponse :=
  { status := 422
    statusText := "Unprocessable Entity"
    body := "\x7b\"detail\": 5\x7d" }

/-- The parsed body of `respDetailNum`. -/
def detailNumJson : Json :=
  Json.obj (JsonObj.cons "detail".data (Json.num "5".data) JsonObj.nil)

/-- A 422 response whose JSON body carries a FastAPI-style `detail` array
of error objects. -/
def respDetailArr : HttpResponse :=
  { status := 422
    statusText := "Unprocessable Entity"
    body := "\x7b\"detail\": [\x7b\"msg\": \"bad\"\x7d]\x7d" }

/-- A resolved push response carrying a count and a message. -/
def pushRespWithMsg : PushResponse :=
  { pushed_count := some 3
    message := some "All 3 cases created in project HC" }

/-- A resolved push response carrying a count and no message. -/
def pushRespNoMsg : PushResponse :=
  { pushed_count := some 3
    message := none }

/-- A reports-screen test case tagged FDA and ISO. -/
def fdaIsoCase : ReportTestCase :=
  { tc_id := "TC-1", tc_title := "t1", risk := "Low"
    compliance_tags := ["FDA", "ISO"], req_title := "r1"
    tc_description := "d1", expected_result := "e1"
    input_data := "i1", created_at := "c1" }

/-- A reports-screen test case tagged ISO only. -/
def isoOnlyCase : ReportTestCase :=
  { tc_id := "TC-2", tc_title := "t2", risk := "Low"
    compliance_tags := ["ISO"], req_title := "r2"
    tc_description := "d2", expected_result := "e2"
    input_data := "i2", created_at := "c2" }

/-- A generation-screen test case with id `TC-10`. -/
def tcTen : TestCase :=
  { tc_id := "TC-10", tc_title := "ten", tc_description := "d"
    expected_result := "e", input_data := "i", compliance_tags := "FDA"
    risk := "Low", created_at := "c" }

/-- A generation-screen test case with id `TC-2`. -/
def tcTwo : TestCase :=
  { tc_id := "TC-2", tc_title := "two", tc_description := "d"
    expected_result := "e", input_data := "i", compliance_tags := "FDA"
    risk := "Low", created_at := "c" }

/-- A grouped requirement titled `R1` holding `TC-10` before `TC-2`. -/
def groupR1 : GroupedRequirement :=
  { requirement_id := "REQ-1", req_title_id := "R1", req_title := "req one"
    requirement_description := "rd1", test_cases := [tcTen, tcTwo] }

/-- A grouped requirement titled `R2` with no test cases. -/
def groupR2 : GroupedRequirement :=
  { requirement_id := "REQ-2", req_title_id := "R2", req_title := "req two"
    requirement_description := "rd2", test_cases := [] }

/-! # Theorems -/

/-- C3: for every input string that parses as JSON, `formatInputData`
returns that value re-serialized with 2-space indentation, and for every
input string that fails to parse as JSON it returns the input unchanged. -/
theorem formatInputData_roundtrip_or_id (s : String) :
    (∀ v, jsonParse s = some v → formatInputData s = jsonStringify2 v) ∧
    (jsonParse s = none → formatInputData s = s) := by
  constructor
  · intro v hv
    simp [formatInputData, hv]
  · intro hv
    simp [formatInputData, hv]

/-- Instantiation of the C3 theorem: a concrete object is pretty-printed
with 2-space indentation and a concrete non-JSON input is returned
unchanged. -/
theorem formatInputData_roundtrip_or_id_witness :
    (jsonParse "\x7b\"a\":1\x7d" =
        some (Json.obj (JsonObj.cons "a".data (Json.num "1".data) JsonObj.nil)) ∧
      formatInputData "\x7b\"a\":1\x7d" =
        jsonStringify2 (Json.obj (JsonObj.cons "a".data (Json.num "1".data) JsonObj.nil)) ∧
      jsonStringify2 (Json.obj (JsonObj.cons "a".data (Json.num "1".data) JsonObj.nil)) =
        "\x7b\n  \"a\": 1\n\x7d") ∧
    (jsonParse "not json" = none ∧ formatInputData "not json" = "not json") :=
  ⟨⟨by decide,
    (formatInputData_roundtrip_or_id "\x7b\"a\":1\x7d").1 _ (by decide),
    by decide⟩,
   ⟨by decide, (formatInputData_roundtrip_or_id "not json").2 (by decide)⟩⟩

/-- Helper for C5: when every generation call resolves, the loop issues one
call per selected requirement in order and then the refetch. -/
theorem runGenLoop_all_ok (ok : String → Bool) (fileId : String) :
    ∀ sel : List String, sel.all ok = true →
      runGenLoop ok fileId sel = sel.map GenEvent.genReq ++ [GenEvent.refetch fileId] := by
  intro sel
  induction sel with
  | nil => intro _; simp [runGenLoop]
  | cons r rs ih =>
    intro h
    rw [List.all_cons, Bool.and_eq_true] at h
    simp [runGenLoop, h.1, ih h.2]

/-- Helper for C5: whenever the refetch appears in the issued trace, it is
the final event and everything before it is exactly the generation calls
for the whole selection, in order. -/
theorem runGenLoop_refetch_at_end (ok : String → Bool) (fileId : String) :
    ∀ (sel : List String) (pre suf : List GenEvent),
      runGenLoop ok fileId sel = pre ++ GenEvent.refetch fileId :: suf →
      pre = sel.map GenEvent.genReq ∧ suf = [] := by
  intro sel
  induction sel with
  | nil =>
    intro pre suf h
    rw [runGenLoop] at h
    cases pre with
    | nil =>
      simp only [List.nil_append, List.cons.injEq] at h
      exact ⟨rfl, h.2.symm⟩
    | cons p pre' =>
      simp only [List.cons_append, List.cons.injEq] at h
      exact absurd h.2.symm (List.append_ne_nil_of_right_ne_nil pre' (List.cons_ne_nil _ _))
  | cons r rs ih =>
    intro pre suf h
    rw [runGenLoop] at h
    cases pre with
    | nil =>
      simp only [List.nil_append, List.cons.injEq] at h
      exact absurd h.1 (by simp)
    | cons p pre' =>
      simp only [List.cons_append, List.cons.injEq] at h
      obtain ⟨hp, hrest⟩ := h
      cases hok : ok r with
      | false =>
        rw [hok] at hrest
        simp at hrest
      | true =>
        rw [hok] at hrest
        simp only [if_true] at hrest
        obtain ⟨hpre', hsuf⟩ := ih pre' suf hrest
        subst hp hpre' hsuf
        simp

/-- C5: for a non-empty selection, the specific-requirements generation
flow issues exactly one generation call per selected requirement,
sequentially in selection order, and the single refetch only after all of
them complete; a refetch never precedes or interleaves with the generation
calls. -/
theorem handleGenerateForRequirements_sequential (ok : String → Bool)
    (fileId : String) (sel : List String) (hne : sel ≠ []) :
    (sel.all ok = true →
      handleGenerateForRequirements ok fileId sel =
        sel.map GenEvent.genReq ++ [GenEvent.refetch fileId]) ∧
    (∀ pre suf,
      handleGenerateForRequirements ok fileId sel =
        pre ++ GenEvent.refetch fileId :: suf →
      pre = sel.map GenEvent.genReq ∧ suf = []) := by
  have hrw : handleGenerateForRequirements ok fileId sel = runGenLoop ok fileId sel := by
    cases sel with
    | nil => exact absurd rfl hne
    | cons r rs => simp [handleGenerateForRequirements]
  constructor
  · intro hall
    rw [hrw]
    exact runGenLoop_all_ok ok fileId sel hall
  · intro pre suf h
    rw [hrw] at h
    exact runGenLoop_refetch_at_end ok fileId sel pre suf h

/-- Instantiation of the C5 theorem: selecting `[REQ-A, REQ-B]` issues the
two generation calls in order and then the single refetch. -/
theorem handleGenerateForRequirements_sequential_witness :
    (["REQ-A", "REQ-B"] : List String) ≠ [] ∧
    handleGenerateForRequirements (fun _ => true) "F-1" ["REQ-A", "REQ-B"] =
      (["REQ-A", "REQ-B"] : List String).map GenEvent.genReq ++
        [GenEvent.refetch "F-1"] :=
  ⟨by decide,
   (handleGenerateForRequirements_sequential (fun _ => true) "F-1"
      ["REQ-A", "REQ-B"] (by decide)).1 (by decide)⟩

/-- Helper for C6: the fold computing `improvedDescription` ends non-empty
exactly when some submit succeeded (given successful submits return
non-empty descriptions) or it started non-empty. -/
theorem improvedFold_ne :
    ∀ (outcomes : List SubmitOutcome) (acc : String),
      (∀ d, SubmitOutcome.success d ∈ outcomes → d ≠ "") →
      (outcomes.foldl
          (fun acc o =>
            match o with
            | SubmitOutcome.failure => acc
            | SubmitOutcome.success d => d) acc ≠ "" ↔
        (∃ d, SubmitOutcome.success d ∈ outcomes) ∨ acc ≠ "") := by
  intro outcomes
  induction outcomes with
  | nil => intro acc _; simp
  | cons o rest ih =>
    intro acc hres
    cases o with
    | failure =>
      rw [List.foldl_cons]
      rw [ih acc (fun d hd => hres d (List.mem_cons_of_mem _ hd))]
      constructor
      · rintro (⟨d, hd⟩ | hacc)
        · exact Or.inl ⟨d, List.mem_cons_of_mem _ hd⟩
        · exact Or.inr hacc
      · rintro (⟨d, hd⟩ | hacc)
        · rcases List.mem_cons.mp hd with heq | hmem
          · exact absurd heq (by simp)
          · exact Or.inl ⟨d, hmem⟩
        · exact Or.inr hacc
    | success d =>
      have hd : d ≠ "" := hres d (List.mem_cons_self _ _)
      rw [List.foldl_cons]
      rw [ih d (fun d' hd' => hres d' (List.mem_cons_of_mem _ hd'))]
      constructor
      · intro _
        exact Or.inl ⟨d, List.mem_cons_self _ _⟩
      · intro _
        exact Or.inr hd

/-- Helper for C6 and list decompositions: a list ending in its only
occurrence of `x` leaves nothing after `x` in any decomposition at `x`. -/
theorem append_singleton_decomp {α : Type _} (x : α) :
    ∀ (l pre suf : List α), x ∉ l → l ++ [x] = pre ++ x :: suf → suf = [] := by
  intro l pre
  induction pre generalizing l with
  | nil =>
    intro suf hx h
    cases l with
    | nil =>
      simp only [List.nil_append] at h
      exact (List.cons.inj h).2.symm
    | cons y l' =>
      simp only [List.cons_append, List.nil_append, List.cons.injEq] at h
      exact absurd (h.1 ▸ List.mem_cons_self y l') hx
  | cons p pre' ih =>
    intro suf hx h
    cases l with
    | nil =>
      simp only [List.nil_append, List.cons_append, List.cons.injEq] at h
      exact absurd h.2.symm (List.append_ne_nil_of_right_ne_nil pre' (List.cons_ne_nil _ _))
    | cons y l' =>
      simp only [List.cons_append, List.cons.injEq] at h
      exact ih l' suf (fun hmem => hx (List.mem_cons_of_mem _ hmem)) h.2

/-- C6: closing the improve modal refetches the grouped test cases exactly
when a successful improve call produced a result during the session (all
successful calls returning non-empty descriptions); submits themselves
never refetch, so a refetch can only appear as the session's final call. -/
theorem improveModal_refetch_iff (outcomes : List SubmitOutcome)
    (hres : ∀ d, SubmitOutcome.success d ∈ outcomes → d ≠ "") :
    (closeRefetches outcomes = true ↔ ∃ d, SubmitOutcome.success d ∈ outcomes) ∧
    (ImproveEvent.refetchCall ∈ improveSessionTrace outcomes ↔
      ∃ d, SubmitOutcome.success d ∈ outcomes) ∧
    (∀ pre suf,
      improveSessionTrace outcomes = pre ++ ImproveEvent.refetchCall :: suf →
      suf = []) := by
  have hmain : closeRefetches outcomes = true ↔
      ∃ d, SubmitOutcome.success d ∈ outcomes := by
    rw [closeRefetches, bne_iff_ne]
    rw [improvedAfter]
    rw [improvedFold_ne outcomes "" hres]
    simp
  have hnotmap : ImproveEvent.refetchCall ∉
      outcomes.map (fun _ => ImproveEvent.improveCall) := by
    intro hmem
    rcases List.mem_map.mp hmem with ⟨a, _, ha⟩
    exact absurd ha (by simp)
  refine ⟨hmain, ?_, ?_⟩
  · rw [improveSessionTrace]
    constructor
    · intro hmem
      rcases List.mem_append.mp hmem with hmem' | hmem'
      · exact absurd hmem' hnotmap
      · cases hcr : closeRefetches outcomes with
        | false => rw [hcr] at hmem'; simp at hmem'
        | true => exact hmain.mp hcr
    · intro hex
      rw [if_pos (hmain.mpr hex)]
      exact List.mem_append_right _ (List.mem_singleton_self _)
  · intro pre suf h
    rw [improveSessionTrace] at h
    cases hcr : closeRefetches outcomes with
    | false =>
      rw [hcr, if_neg Bool.false_ne_true, List.append_nil] at h
      have : ImproveEvent.refetchCall ∈
          outcomes.map (fun _ => ImproveEvent.improveCall) := by
        rw [h]
        exact List.mem_append_right _ (List.mem_cons_self _ _)
      exact absurd this hnotmap
    | true =>
      rw [hcr, if_pos rfl] at h
      exact append_singleton_decomp _ _ pre suf hnotmap h

/-- Instantiation of the C6 theorem: a session with one successful improve
call refetches on close, and a session with no successful call does not. -/
theorem improveModal_refetch_iff_witness :
    (closeRefetches [SubmitOutcome.success "better"] = true ↔
      ∃ d, SubmitOutcome.success d ∈ [SubmitOutcome.success "better"]) ∧
    (closeRefetches [SubmitOutcome.failure] = true ↔
      ∃ d, SubmitOutcome.success d ∈ [SubmitOutcome.failure]) :=
  ⟨(improveModal_refetch_iff [SubmitOutcome.success "better"]
      (by intro d hd; simp at hd; subst hd; decide)).1,
   (improveModal_refetch_iff [SubmitOutcome.failure]
      (by intro d hd; simp at hd)).1⟩

/-- C7: the reports screen's compliance-tag filter keeps exactly the test
cases having at least one tag in the selected set (OR semantics), keeps
everything when the selection is empty, and never reorders or duplicates
(the result is a sublist of the input). -/
theorem filteredTestCases_or_semantics (sel : List String)
    (tcs : List ReportTestCase) :
    (sel = [] → filteredTestCases sel tcs = tcs) ∧
    (∀ tc, tc ∈ filteredTestCases sel tcs ↔
      tc ∈ tcs ∧ (sel = [] ∨ ∃ tag ∈ tc.compliance_tags, tag ∈ sel)) ∧
    (filteredTestCases sel tcs).Sublist tcs := by
  refine ⟨?_, ?_, ?_⟩
  · rintro rfl
    simp [filteredTestCases]
  · intro tc
    cases sel with
    | nil => simp [filteredTestCases]
    | cons a l =>
      simp [filteredTestCases, List.mem_filter, List.any_eq_true, List.elem_iff]
  · show List.Sublist (tcs.filter _) tcs
    exact List.filter_sublist tcs

/-- Instantiation of the C7 theorem: selecting `{FDA}` over cases tagged
`{FDA, ISO}` and `{ISO}` keeps exactly the first case. -/
theorem filteredTestCases_or_semantics_witness :
    (fdaIsoCase ∈ filteredTestCases ["FDA"] [fdaIsoCase, isoOnlyCase] ↔
      fdaIsoCase ∈ [fdaIsoCase, isoOnlyCase] ∧
        ((["FDA"] : List String) = [] ∨
          ∃ tag ∈ fdaIsoCase.compliance_tags, tag ∈ (["FDA"] : List String))) ∧
    filteredTestCases ["FDA"] [fdaIsoCase, isoOnlyCase] = [fdaIsoCase] :=
  ⟨(filteredTestCases_or_semantics ["FDA"] [fdaIsoCase, isoOnlyCase]).2.1 fdaIsoCase,
   by decide⟩

/-- Helper for C8: on a non-2xx response every operation throws the message
computed by `thrownMessage`. -/
theorem runApiOp_thrown (op : ApiOp) (r : HttpResponse) (hok : respOk r = false) :
    runApiOp op r = ApiOutcome.thrown (thrownMessage op r) := by
  cases op <;> simp [runApiOp, hok, thrownMessage]

/-- C8 counterexample: `improveTestCase` receives a 500 response whose
status text is `Internal Server Error` and whose JSON body carries
`detail: "boom"`, yet the thrown message is the fixed string
`Failed to improve test case`, which neither contains the status text nor
the detail — so the message is not derived from either source the claim
names. -/
theorem improveTestCase_fixed_message_cex :
    runApiOp ApiOp.improveTestCase respJira500 =
      ApiOutcome.thrown "Failed to improve test case" ∧
    pushToJiraMessage respJira500.body = "boom" ∧
    respJira500.statusText = "Internal Server Error" ∧
    strContains "Failed to improve test case" "boom" = false ∧
    strContains "Failed to improve test case" "Internal Server Error" = false := by
  decide

/-- C8 as amended: for every HTTP-performing operation and every response
whose body is valid JSON, the operation throws exactly when the status is
non-2xx and returns the parsed body on a 2xx status; the thrown message is
the operation's fixed text followed by the status text, except that
`pushToJira` uses the body's `detail` member when it is truthy — coerced
to a string as `new Error` does, so a numeric detail throws its digits and
an object-valued detail throws `[object Object]` — with a fixed fallback
otherwise, and `improveTestCase` always uses a fixed constant. -/
theorem apiService_error_contract (op : ApiOp) (r : HttpResponse) (v : Json)
    (hbody : jsonParse r.body = some v) :
    ((∃ m, runApiOp op r = ApiOutcome.thrown m) ↔ respOk r = false) ∧
    (respOk r = true → runApiOp op r = ApiOutcome.success v) ∧
    (respOk r = false → runApiOp op r = ApiOutcome.thrown (thrownMessage op r)) := by
  cases hok : respOk r with
  | true =>
    have hrun : runApiOp op r = ApiOutcome.success v := by
      simp [runApiOp, hok, parsedBody, hbody]
    refine ⟨⟨?_, ?_⟩, fun _ => hrun, ?_⟩
    · rintro ⟨m, hm⟩
      rw [hrun] at hm
      exact absurd hm (by simp)
    · intro hfalse
      exact absurd hfalse (by simp)
    · intro hfalse
      exact absurd hfalse (by simp)
  | false =>
    have hrun := runApiOp_thrown op r hok
    refine ⟨⟨fun _ => rfl, fun _ => ⟨_, hrun⟩⟩, ?_, fun _ => hrun⟩
    intro htrue
    exact absurd htrue (by simp)

/-- Instantiation of the C8 amended theorem at a 500 response with a valid
JSON body: `getUploadedFiles` throws its fixed text plus the status text,
and at a 200 response it returns the parsed body. -/
theorem apiService_error_contract_witness :
    (jsonParse respJira500.body = some detailBoomJson ∧
      runApiOp ApiOp.getUploadedFiles respJira500 =
        ApiOutcome.thrown (thrownMessage ApiOp.getUploadedFiles respJira500) ∧
      thrownMessage ApiOp.getUploadedFiles respJira500 =
        "Failed to fetch files: Internal Server Error") ∧
    (respOk { status := 200, statusText := "OK", body := "[1]" } = true ∧
      runApiOp ApiOp.getUploadedFiles { status := 200, statusText := "OK", body := "[1]" } =
        ApiOutcome.success (Json.arr (JsonArr.cons (Json.num "1".data) JsonArr.nil))) ∧
    (runApiOp ApiOp.pushToJira respDetailNum =
        ApiOutcome.thrown (thrownMessage ApiOp.pushToJira respDetailNum) ∧
      thrownMessage ApiOp.pushToJira respDetailNum = "5" ∧
      thrownMessage ApiOp.pushToJira respDetailArr = "[object Object]" ∧
      thrownMessage ApiOp.pushToJira respJira500 = "boom") :=
  ⟨⟨by decide,
    (apiService_error_contract ApiOp.getUploadedFiles respJira500 detailBoomJson
        (by decide)).2.2 (by decide),
    by decide⟩,
   ⟨by decide,
    (apiService_error_contract ApiOp.getUploadedFiles
        { status := 200, statusText := "OK", body := "[1]" }
        (Json.arr (JsonArr.cons (Json.num "1".data) JsonArr.nil))
        (by decide)).2.1 (by decide)⟩,
   ⟨(apiService_error_contract ApiOp.pushToJira respDetailNum detailNumJson
        (by decide)).2.2 (by decide),
    by decide, by decide, by decide⟩⟩

/-- C9 counterexample: a successful push whose response carries count 3 and
the message `All 3 cases created in project HC` renders the fixed success
sentence with the count only; the response's message is stored in state but
does not appear in the rendered success line, contradicting the claim that
the success state displays the count together with the response's
message. -/
theorem integration_success_message_cex :
    resolvePush (Except.ok pushRespWithMsg) =
      { status := JiraStatus.success
        message := "All 3 cases created in project HC"
        count := some 3 } ∧
    renderStatusLine (resolvePush (Except.ok pushRespWithMsg)) =
      some "Successfully pushed 3 test cases to Jira." ∧
    strContains "Successfully pushed 3 test cases to Jira."
        "All 3 cases created in project HC" = false := by
  decide

/-- C9 as amended: invoking the push drives the screen from idle through
loading to exactly one of success or error; the success state stores the
response's message and displays a fixed sentence carrying only the pushed
count (blank when the count is absent or zero), while the error state
displays the thrown error's message (defaulted when empty). -/
theorem integration_push_states (s : IntegrationState) (fid : String)
    (outcome : Except String PushResponse) :
    (fid ≠ "" → startPush s fid =
      { status := JiraStatus.loading, message := "", count := none }) ∧
    (fid = "" → startPush s fid = s) ∧
    ((resolvePush outcome).status = JiraStatus.success ∨
      (resolvePush outcome).status = JiraStatus.error) ∧
    (∀ r, outcome = Except.ok r →
      (resolvePush outcome).status = JiraStatus.success ∧
      renderStatusLine (resolvePush outcome) =
        some ("Successfully pushed " ++
          (match r.pushed_count with
           | some n => if n = 0 then "" else toString n
           | none => "") ++ " test cases to Jira.") ∧
      (resolvePush outcome).message =
        (match r.message with
         | some m => if m = "" then pushSuccessDefault else m
         | none => pushSuccessDefault)) ∧
    (∀ m, outcome = Except.error m →
      (resolvePush outcome).status = JiraStatus.error ∧
      renderStatusLine (resolvePush outcome) =
        some (if m = "" then pushErrorDefault else m)) := by
  refine ⟨?_, ?_, ?_, ?_, ?_⟩
  · intro hne
    rw [startPush, if_neg hne]
  · intro he
    rw [startPush, if_pos he]
  · cases outcome with
    | ok r => left; rfl
    | error m => right; rfl
  · rintro r rfl
    refine ⟨rfl, ?_, rfl⟩
    rw [renderStatusLine]
    cases hc : r.pushed_count with
    | none => simp [resolvePush, hc]
    | some n =>
      by_cases hn : n = 0
      · simp [resolvePush, hc, hn]
      · simp [resolvePush, hc, hn]
  · rintro m rfl
    exact ⟨rfl, rfl⟩

/-- Instantiation of the C9 amended theorem: a push with a selected file
enters loading; a resolved push with count 3 renders the fixed sentence
with the count; a rejected push renders the thrown message. -/
theorem integration_push_states_witness :
    ("F-1" : String) ≠ "" ∧
    startPush initialIntegrationState "F-1" =
      { status := JiraStatus.loading, message := "", count := none } ∧
    renderStatusLine (resolvePush (Except.ok pushRespNoMsg)) =
      some "Successfully pushed 3 test cases to Jira." ∧
    renderStatusLine (resolvePush (Except.error "Failed to push test cases to Jira.")) =
      some "Failed to push test cases to Jira." :=
  ⟨by decide,
   (integration_push_states initialIntegrationState "F-1"
      (Except.ok pushRespNoMsg)).1 (by decide),
   by
    have h := (integration_push_states initialIntegrationState "F-1"
      (Except.ok pushRespNoMsg)).2.2.2.1 pushRespNoMsg rfl
    exact h.2.1.trans (by decide),
   by
    have h := (integration_push_states initialIntegrationState "F-1"
      (Except.error "Failed to push test cases to Jira.")).2.2.2.2
      "Failed to push test cases to Jira." rfl
    exact h.2.trans (by decide)⟩

/-- Helper for C10: each selection action preserves distinctness when
select-all receives distinct requirement ids. -/
theorem applySelOp_nodup (sel : List String) (op : SelOp) (hnd : sel.Nodup)
    (hop : ∀ ids, op = SelOp.selectAll ids → ids.Nodup) :
    (applySelOp sel op).Nodup := by
  cases op with
  | toggle id =>
    cases helem : sel.elem id with
    | true =>
      simp only [applySelOp, helem, if_true]
      exact List.Nodup.filter _ hnd
    | false =>
      have hmem : id ∉ sel := fun hmem =>
        absurd (List.elem_iff.mpr hmem) (by rw [helem]; simp)
      simp only [applySelOp, helem, Bool.false_eq_true, if_false]
      refine List.Nodup.append hnd (List.nodup_singleton id) ?_
      intro a ha hb
      rw [List.mem_singleton] at hb
      exact hmem (hb ▸ ha)
  | selectAll ids =>
    by_cases hlen : sel.length = ids.length
    · simp [applySelOp, hlen]
    · simp only [applySelOp, if_neg hlen]
      exact hop ids rfl

/-- Helper for C10: distinctness is an invariant of every action sequence
from any distinct starting selection. -/
theorem runSelOps_nodup_aux :
    ∀ (ops : List SelOp) (sel : List String), sel.Nodup →
      (∀ ids, SelOp.selectAll ids ∈ ops → ids.Nodup) →
      (ops.foldl applySelOp sel).Nodup := by
  intro ops
  induction ops with
  | nil => intro sel hnd _; exact hnd
  | cons op rest ih =>
    intro sel hnd hids
    rw [List.foldl_cons]
    refine ih (applySelOp sel op) ?_ (fun ids hmem => hids ids (List.mem_cons_of_mem _ hmem))
    exact applySelOp_nodup sel op hnd (fun ids heq => hids ids (heq ▸ List.mem_cons_self _ _))

/-- C10: starting from the empty selection, every sequence of selection
actions keeps the selected requirement ids distinct (select-all receiving
distinct fetched ids); toggling removes a present id and appends an absent
one exactly once, and select-all yields the empty selection or exactly the
fetched id list. -/
theorem selection_nodup_invariant (ops : List SelOp)
    (hids : ∀ ids, SelOp.selectAll ids ∈ ops → ids.Nodup) :
    (runSelOps ops).Nodup ∧
    (∀ (sel : List String) (id : String),
      (id ∈ sel → applySelOp sel (SelOp.toggle id) = sel.filter (fun rid => rid ≠ id) ∧
        id ∉ applySelOp sel (SelOp.toggle id)) ∧
      (id ∉ sel → applySelOp sel (SelOp.toggle id) = sel ++ [id] ∧
        (applySelOp sel (SelOp.toggle id)).count id = (sel.count id) + 1)) ∧
    (∀ (sel : List String) (ids : List String),
      applySelOp sel (SelOp.selectAll ids) = [] ∨
        applySelOp sel (SelOp.selectAll ids) = ids) := by
  refine ⟨runSelOps_nodup_aux ops [] List.nodup_nil hids, ?_, ?_⟩
  · intro sel id
    constructor
    · intro hmem
      constructor
      · simp [applySelOp, hmem]
      · simp [applySelOp, hmem, List.mem_filter]
    · intro hmem
      constructor
      · simp [applySelOp, hmem]
      · simp [applySelOp, hmem, List.count_append]
  · intro sel ids
    by_cases hlen : sel.length = ids.length
    · left; simp [applySelOp, hlen]
    · right; simp [applySelOp, hlen]

/-- Splitting a run satisfying `p` followed by a non-`p` head: `takeWhile`
recovers the run. -/
theorem takeWhile_append_all {p : Char → Bool} :
    ∀ (l rest : List Char), l.all p = true →
      (∀ c, rest.head? = some c → p c = false) →
      (l ++ rest).takeWhile p = l ∧ (l ++ rest).dropWhile p = rest := by
  intro l
  induction l with
  | nil =>
    intro rest _ hhead
    cases rest with
    | nil => exact ⟨rfl, rfl⟩
    | cons c t =>
      have hc := hhead c rfl
      constructor
      · simp [List.takeWhile_cons, hc]
      · simp [List.dropWhile_cons, hc]
  | cons x xs ih =>
    intro rest hall hhead
    rw [List.all_cons, Bool.and_eq_true] at hall
    have h := ih rest hall.2 hhead
    constructor
    · rw [List.cons_append, List.takeWhile_cons, if_pos hall.1, h.1]
    · rw [List.cons_append, List.dropWhile_cons, if_pos hall.1, h.2]

/-- A run entirely satisfying `p` is its own `takeWhile`. -/
theorem takeWhile_all_self {p : Char → Bool} (l : List Char) (h : l.all p = true) :
    l.takeWhile p = l ∧ l.dropWhile p = [] := by
  have := takeWhile_append_all l [] h (by intro c hc; simp at hc)
  simpa using this

/-- Dropping a satisfied run never lengthens a list. -/
theorem length_dropWhile_le {p : Char → Bool} :
    ∀ l : List Char, (l.dropWhile p).length ≤ l.length := by
  intro l
  induction l with
  | nil => exact Nat.le_refl _
  | cons x xs ih =>
    rw [List.dropWhile_cons]
    by_cases h : p x = true
    · rw [if_pos h]
      exact Nat.le_succ_of_le ih
    · rw [if_neg h]

/-- A `dropWhile` returning a list of the same length removed nothing. -/
theorem dropWhile_eq_self_of_length {p : Char → Bool} :
    ∀ l : List Char, (l.dropWhile p).length = l.length → l.dropWhile p = l := by
  intro l
  induction l with
  | nil => intro _; rfl
  | cons x xs _ =>
    intro hlen
    rw [List.dropWhile_cons] at hlen ⊢
    by_cases h : p x = true
    · rw [if_pos h] at hlen
      have := length_dropWhile_le (p := p) xs
      simp at hlen
      omega
    · rw [if_neg h]

/-- A trim fixed point has no leading whitespace. -/
theorem trim_fix_dropWhile {l : List Char} (h : trimChars l = l) :
    l.dropWhile isWsChar = l := by
  have h1 : (trimChars l).length ≤ (l.dropWhile isWsChar).length := by
    rw [trimChars, dropTrailing, List.length_reverse]
    calc ((l.dropWhile isWsChar).reverse.dropWhile isWsChar).length
        ≤ (l.dropWhile isWsChar).reverse.length := length_dropWhile_le _
      _ = (l.dropWhile isWsChar).length := List.length_reverse _
  rw [h] at h1
  have h2 := length_dropWhile_le (p := isWsChar) l
  exact dropWhile_eq_self_of_length l (by omega)

/-- A trim fixed point has no trailing whitespace. -/
theorem trim_fix_dropTrailing {l : List Char} (h : trimChars l = l) :
    l.reverse.dropWhile isWsChar = l.reverse := by
  have hd := trim_fix_dropWhile h
  have h' : dropTrailing isWsChar l = l := by
    rw [trimChars, hd] at h
    exact h
  rw [dropTrailing] at h'
  have := congrArg List.reverse h'
  rwa [List.reverse_reverse] at this

/-- Appending one space to a trimmed non-empty list and trimming again
recovers the list. -/
theorem trimChars_append_space {l : List Char} (hne : l ≠ [])
    (h : trimChars l = l) : trimChars (l ++ [' ']) = l := by
  have hd := trim_fix_dropWhile h
  have ht := trim_fix_dropTrailing h
  cases l with
  | nil => exact absurd rfl hne
  | cons x xs =>
    have hx : isWsChar x = false := by
      by_cases hx' : isWsChar x = true
      · rw [List.dropWhile_cons, if_pos hx'] at hd
        have := length_dropWhile_le (p := isWsChar) xs
        have hlen := congrArg List.length hd
        simp at hlen
        omega
      · exact Bool.eq_false_iff.mpr hx'
    rw [trimChars, List.cons_append, List.dropWhile_cons, if_neg (by simp [hx])]
    rw [dropTrailing]
    rw [show ((x :: (xs ++ [' '])).reverse) = ' ' :: (x :: xs).reverse by simp]
    rw [List.dropWhile_cons, if_pos (by decide)]
    rw [ht, List.reverse_reverse]

/-- A well-formed numbered description decomposes as a non-empty digit run
followed by a period; `takeWhile`/`dropWhile` recover the decomposition. -/
theorem segsChars_digit_dot (segs : List (String × String)) (hne : segs ≠ [])
    (hwf : ∀ seg ∈ segs, segNumberOk seg) :
    ∃ (n rest' : List Char), segsChars segs = n ++ '.' :: rest' ∧ n ≠ [] ∧
      n.all isDigitChar = true ∧
      (segsChars segs).takeWhile isDigitChar = n ∧
      (segsChars segs).dropWhile isDigitChar = '.' :: rest' := by
  have main : ∃ (n rest' : List Char), segsChars segs = n ++ '.' :: rest' ∧ n ≠ [] ∧
      n.all isDigitChar = true := by
    cases segs with
    | nil => exact absurd rfl hne
    | cons seg rest =>
      obtain ⟨hn1, hn2⟩ := hwf seg (List.mem_cons_self _ _)
      cases rest with
      | nil =>
        exact ⟨seg.1.data, ' ' :: seg.2.data, by simp [segsChars, segChars], hn1, hn2⟩
      | cons r rs =>
        refine ⟨seg.1.data, ' ' :: (seg.2.data ++ ' ' :: segsChars (r :: rs)), ?_, hn1, hn2⟩
        simp [segsChars, segChars]
  obtain ⟨n, rest', heq, hn1, hn2⟩ := main
  have hsplit := takeWhile_append_all n ('.' :: rest') hn2
    (by intro ch hch; simp at hch; subst hch; decide)
  exact ⟨n, rest', heq, hn1, hn2, by rw [heq, hsplit.1], by rw [heq, hsplit.2]⟩

/-- A well-formed numbered description starts with a digit. -/
theorem segsChars_head_digit (segs : List (String × String)) (hne : segs ≠ [])
    (hwf : ∀ seg ∈ segs, segNumberOk seg) :
    ∃ d t, segsChars segs = d :: t ∧ isDigitChar d = true := by
  obtain ⟨n, rest', heq, hn1, hn2, _, _⟩ := segsChars_digit_dot segs hne hwf
  cases n with
  | nil => exact absurd rfl hn1
  | cons d n' =>
    rw [List.all_cons, Bool.and_eq_true] at hn2
    exact ⟨d, n' ++ '.' :: rest', by simp [heq], hn2.1⟩

/-- The regex matches a final well-formed segment, capturing exactly its
content and consuming the whole input. -/
theorem tryMatchAt_seg_last (seg : String × String)
    (hn : segNumberOk seg) (hc : contentClean seg) :
    tryMatchAt (segChars seg) = some (seg.2.data, []) := by
  obtain ⟨hn1, hn2⟩ := hn
  obtain ⟨hc1, hc2, _⟩ := hc
  have hsplit := takeWhile_append_all seg.1.data ('.' :: ' ' :: seg.2.data) hn2
    (by intro ch hch; simp at hch; subst hch; decide)
  have hcap := takeWhile_all_self seg.2.data hc2
  have hne1 : (seg.1.data).isEmpty = false := by
    cases h : seg.1.data with
    | nil => exact absurd h hn1
    | cons d n' => rfl
  have hnecap : (seg.2.data).isEmpty = false := by
    cases h : seg.2.data with
    | nil => exact absurd h hc1
    | cons d n' => rfl
  simp only [tryMatchAt, segChars, hsplit.1, hsplit.2, hne1, Bool.false_eq_true,
    if_false, hcap.1, hcap.2, hnecap]
  rw [if_pos (by decide)]

/-- The regex matches a non-final well-formed segment, capturing its
content plus the separating space and stopping at the next segment. -/
theorem tryMatchAt_seg_mid (seg : String × String) (rest : List (String × String))
    (hn : segNumberOk seg) (hc : contentClean seg) (hrne : rest ≠ [])
    (hrwf : ∀ s ∈ rest, segNumberOk s) :
    tryMatchAt (segChars seg ++ ' ' :: segsChars rest) =
      some (seg.2.data ++ [' '], segsChars rest) := by
  obtain ⟨hn1, hn2⟩ := hn
  obtain ⟨hc1, hc2, _⟩ := hc
  obtain ⟨d, t, hdt, hdig⟩ := segsChars_head_digit rest hrne hrwf
  obtain ⟨n2, rest2, _, hn2ne, _, htake2, hdrop2⟩ := segsChars_digit_dot rest hrne hrwf
  have heq : segChars seg ++ ' ' :: segsChars rest =
      seg.1.data ++ '.' :: ' ' :: (seg.2.data ++ ' ' :: segsChars rest) := by
    simp [segChars]
  have hsplit := takeWhile_append_all seg.1.data
      ('.' :: ' ' :: (seg.2.data ++ ' ' :: segsChars rest)) hn2
    (by intro ch hch; simp at hch; subst hch; decide)
  have hcapall : (seg.2.data ++ [' ']).all (fun ch => !isDigitChar ch) = true := by
    rw [List.all_append]
    simp only [hc2, Bool.true_and]
    decide
  have hcapsplit := takeWhile_append_all (p := fun ch => !isDigitChar ch)
      (seg.2.data ++ [' ']) (segsChars rest) hcapall
    (by
      intro ch hch
      rw [hdt] at hch
      simp at hch
      subst hch
      simp [hdig])
  have hassoc : seg.2.data ++ ' ' :: segsChars rest =
      (seg.2.data ++ [' ']) ++ segsChars rest := by
    simp
  have hne1 : (seg.1.data).isEmpty = false := by
    cases h : seg.1.data with
    | nil => exact absurd h hn1
    | cons d' n' => rfl
  have hnecap : (seg.2.data ++ [' ']).isEmpty = false := by
    cases h : seg.2.data with
    | nil => exact absurd h hc1
    | cons d' n' => rfl
  have hn2take : ((segsChars rest).takeWhile isDigitChar).isEmpty = false := by
    rw [htake2]
    cases h : n2 with
    | nil => exact absurd h hn2ne
    | cons d' n' => rfl
  rw [heq]
  simp only [tryMatchAt, hsplit.1, hsplit.2, hne1, Bool.false_eq_true, if_false]
  rw [if_pos (by decide)]
  rw [hassoc, hcapsplit.1, hcapsplit.2]
  rw [hdt]
  simp only [hnecap, Bool.false_eq_true, if_false]
  rw [← hdt, hn2take]
  simp only [Bool.false_eq_true, if_false, hdrop2]

/-- The scanner yields nothing on empty input, whatever the fuel. -/
theorem scanAux_nil : ∀ fuel, scanAux fuel [] = [] := by
  intro fuel
  cases fuel <;> rfl

/-- Scanning a well-formed numbered description yields exactly the content
of each segment, in order. -/
theorem scanAux_segsChars :
    ∀ (segs : List (String × String)) (fuel : Nat), segs ≠ [] →
      (∀ seg ∈ segs, segNumberOk seg ∧ contentClean seg) →
      (segsChars segs).length ≤ fuel →
      scanAux fuel (segsChars segs) = segs.map (fun seg => seg.2.data) := by
  intro segs
  induction segs with
  | nil => intro fuel h _ _; exact absurd rfl h
  | cons seg rest ih =>
    intro fuel _ hwf hlen
    obtain ⟨hn, hc⟩ := hwf seg (List.mem_cons_self _ _)
    cases rest with
    | nil =>
      have hpos : 0 < (segsChars [seg]).length := by
        obtain ⟨d, t, hdt, _⟩ := segsChars_head_digit [seg] (by simp)
          (by intro s hs; rw [List.mem_singleton] at hs; subst hs; exact hn)
        rw [hdt]
        simp
      cases fuel with
      | zero => omega
      | succ f =>
        rw [show segsChars [seg] = segChars seg from rfl]
        simp only [scanAux, tryMatchAt_seg_last seg hn hc]
        rw [scanAux_nil, hc.2.2]
        rfl
    | cons r rs =>
      have hchars : segsChars (seg :: r :: rs) =
          segChars seg ++ ' ' :: segsChars (r :: rs) := rfl
      have hpos : 0 < (segsChars (seg :: r :: rs)).length := by
        rw [hchars]
        simp
      cases fuel with
      | zero => omega
      | succ f =>
        have hrwf : ∀ s ∈ (r :: rs), segNumberOk s ∧ contentClean s :=
          fun s hs => hwf s (List.mem_cons_of_mem _ hs)
        rw [hchars]
        simp only [scanAux,
          tryMatchAt_seg_mid seg (r :: rs) hn hc (List.cons_ne_nil _ _)
            (fun s hs => (hrwf s hs).1)]
        rw [trimChars_append_space hc.1 hc.2.2]
        have hlen' : (segsChars (r :: rs)).length ≤ f := by
          rw [hchars, List.length_append, List.length_cons] at hlen
          omega
        rw [ih f (List.cons_ne_nil _ _) hrwf hlen']
        rfl

/-- C1 counterexample: the description `1. a2 2. b` is of the claimed
numbered form with content segments `a2` and `b`, yet the function renders
the single item `b` — the regex cannot capture content containing a digit,
so the claimed ordered list `[a2, b]` is not produced. -/
theorem formatDescriptionSmart_digit_content_cex :
    mkNumberedDesc [("1", "a2"), ("2", "b")] = "1. a2 2. b" ∧
    formatDescriptionSmart "1. a2 2. b" = RenderedDesc.orderedList ["b"] ∧
    RenderedDesc.orderedList ["b"] ≠ RenderedDesc.orderedList ["a2", "b"] := by
  decide

/-- C1 as amended: for every description of the numbered form whose content
segments are non-empty, digit-free and trimmed, `formatDescriptionSmart`
returns the ordered list of exactly those content segments in source order,
with the captured digits ignored for numbering. -/
theorem formatDescriptionSmart_numbered (segs : List (String × String))
    (hne : segs ≠ [])
    (hwf : ∀ seg ∈ segs, segNumberOk seg ∧ contentClean seg) :
    formatDescriptionSmart (mkNumberedDesc segs) =
      RenderedDesc.orderedList (segs.map (fun seg => seg.2)) := by
  have hscan : scanMatches (mkNumberedDesc segs).data =
      segs.map (fun seg => seg.2.data) := by
    rw [show (mkNumberedDesc segs).data = segsChars segs from rfl]
    exact scanAux_segsChars segs (segsChars segs).length hne hwf (Nat.le_refl _)
  have hnonempty : (segs.map (fun seg => seg.2.data)).isEmpty = false := by
    cases segs with
    | nil => exact absurd rfl hne
    | cons s ss => rfl
  rw [formatDescriptionSmart]
  simp only [hscan, hnonempty, Bool.false_eq_true, if_false]
  rw [List.map_map]
  rfl

/-- Instantiation of the C1 amended theorem: `1. a 2. b 3. c` renders as
the ordered list `[a, b, c]`. -/
theorem formatDescriptionSmart_numbered_witness :
    mkNumberedDesc [("1", "a"), ("2", "b"), ("3", "c")] = "1. a 2. b 3. c" ∧
    formatDescriptionSmart (mkNumberedDesc [("1", "a"), ("2", "b"), ("3", "c")]) =
      RenderedDesc.orderedList
        ([("1", "a"), ("2", "b"), ("3", "c")].map
          (fun seg : String × String => seg.2)) :=
  ⟨by decide,
   formatDescriptionSmart_numbered [("1", "a"), ("2", "b"), ("3", "c")]
     (by decide) (by decide)⟩

/-- C2: when the numbered-step regex finds no match, the function falls
back to splitting on newlines and dropping blank lines: more than one
surviving line renders one list item per line, and exactly one surviving
line renders the whole description as a single paragraph. -/
theorem formatDescriptionSmart_fallback (desc : String)
    (hnm : scanMatches desc.data = []) :
    (1 < ((splitLines desc.data).filter
        (fun line => !(trimChars line).isEmpty)).length →
      formatDescriptionSmart desc =
        RenderedDesc.orderedList
          (((splitLines desc.data).filter
              (fun line => !(trimChars line).isEmpty)).map
            (fun l => String.mk l))) ∧
    (((splitLines desc.data).filter
        (fun line => !(trimChars line).isEmpty)).length = 1 →
      formatDescriptionSmart desc = RenderedDesc.paragraph desc) := by
  rw [formatDescriptionSmart]
  simp only [hnm, List.isEmpty_nil, if_true]
  rw [formatDescription]
  constructor
  · intro hgt
    rw [if_pos hgt]
  · intro heq
    rw [if_neg (by omega)]

/-- Instantiation of the C2 theorem: `foo\nbar` (no numbered segments, two
non-blank lines) renders as the two-item list, and `  \nhello` (one
non-blank line) renders as a single paragraph of the whole description. -/
theorem formatDescriptionSmart_fallback_witness :
    (scanMatches "foo\nbar".data = [] ∧
      formatDescriptionSmart "foo\nbar" = RenderedDesc.orderedList ["foo", "bar"]) ∧
    (scanMatches "  \nhello".data = [] ∧
      formatDescriptionSmart "  \nhello" = RenderedDesc.paragraph "  \nhello") :=
  ⟨⟨by decide,
    ((formatDescriptionSmart_fallback "foo\nbar" (by decide)).1 (by decide)).trans
      (by decide)⟩,
   ⟨by decide,
    (formatDescriptionSmart_fallback "  \nhello" (by decide)).2 (by decide)⟩⟩

/-- Unfolding of the string comparison on a cons pair: strictly smaller
head, or numerically equal heads and strictly smaller tail. -/
theorem strLtB_cons_iff (x y : Char) (as bs : List Char) :
    strLtB (x :: as) (y :: bs) = true ↔
      (x.toNat < y.toNat ∨ (x.toNat = y.toNat ∧ strLtB as bs = true)) := by
  simp only [strLtB, charLtB]
  split_ifs with h1 h2
  · simp only [decide_eq_true_eq] at h1
    simp [h1]
  · simp only [decide_eq_true_eq] at h1 h2
    constructor
    · intro h
      exact absurd h (by simp)
    · rintro (h | ⟨h, _⟩) <;> omega
  · simp only [decide_eq_true_eq] at h1 h2
    constructor
    · intro h
      exact Or.inr ⟨by omega, h⟩
    · rintro (h | ⟨_, h⟩)
      · omega
      · exact h

/-- The string comparison is irreflexive. -/
theorem strLtB_irrefl : ∀ a : List Char, strLtB a a = false := by
  intro a
  induction a with
  | nil => rfl
  | cons x as ih =>
    rw [Bool.eq_false_iff, Ne, strLtB_cons_iff]
    rintro (h | ⟨_, h⟩)
    · omega
    · rw [ih] at h
      exact absurd h (by simp)

/-- The string comparison is asymmetric. -/
theorem strLtB_asymm : ∀ a b : List Char, strLtB a b = true → strLtB b a = false := by
  intro a
  induction a with
  | nil =>
    intro b h
    cases b with
    | nil => simp [strLtB] at h
    | cons y bs => simp [strLtB]
  | cons x as ih =>
    intro b h
    cases b with
    | nil => simp [strLtB] at h
    | cons y bs =>
      rw [strLtB_cons_iff] at h
      rw [Bool.eq_false_iff, Ne, strLtB_cons_iff]
      rintro (h' | ⟨h', hrec⟩)
      · rcases h with h | ⟨h, _⟩ <;> omega
      · rcases h with h | ⟨h, hrec2⟩
        · omega
        · exact absurd hrec (by simp [ih bs hrec2])

/-- The string comparison is transitive. -/
theorem strLtB_trans :
    ∀ a b c : List Char, strLtB a b = true → strLtB b c = true → strLtB a c = true := by
  intro a
  induction a with
  | nil =>
    intro b c hab hbc
    cases b with
    | nil => simp [strLtB] at hab
    | cons y bs =>
      cases c with
      | nil => simp [strLtB] at hbc
      | cons z cs => simp [strLtB]
  | cons x as ih =>
    intro b c hab hbc
    cases b with
    | nil => simp [strLtB] at hab
    | cons y bs =>
      cases c with
      | nil => simp [strLtB] at hbc
      | cons z cs =>
        rw [strLtB_cons_iff] at hab hbc ⊢
        rcases hab with h1 | ⟨h1, hr1⟩
        · rcases hbc with h2 | ⟨h2, _⟩
          · exact Or.inl (by omega)
          · exact Or.inl (by omega)
        · rcases hbc with h2 | ⟨h2, hr2⟩
          · exact Or.inl (by omega)
          · exact Or.inr ⟨by omega, ih bs cs hr1 hr2⟩

/-- Asymmetry at the `String` level. -/
theorem jsStrLt_asymm (a b : String) (h : jsStrLt a b = true) : jsStrLt b a = false :=
  strLtB_asymm a.data b.data h

/-- Transitivity at the `String` level. -/
theorem jsStrLt_trans (a b c : String) (hab : jsStrLt a b = true)
    (hbc : jsStrLt b c = true) : jsStrLt a c = true :=
  strLtB_trans a.data b.data c.data hab hbc

/-- The non-strict order the sorted output is arranged by: `a` may precede
`b` when `b`'s key is not strictly below `a`'s. -/
def keyLe {α : Type _} (key : α → String) (a b : α) : Prop :=
  jsStrLt (key b) (key a) = false

/-- Stable insertion keeps the insertion a permutation. -/
theorem insertByKey_perm {α : Type _} (key : α → String) (x : α) :
    ∀ l : List α, (insertByKey key x l).Perm (x :: l) := by
  intro l
  induction l with
  | nil => exact List.Perm.refl _
  | cons y ys ih =>
    rw [insertByKey]
    cases h : jsStrLt (key x) (key y) with
    | true =>
      rw [if_pos rfl]
    | false =>
      rw [if_neg (by simp)]
      exact (ih.cons y).trans (List.Perm.swap x y ys)

/-- Membership in a stable insertion. -/
theorem mem_insertByKey {α : Type _} (key : α → String) (x a : α) (l : List α) :
    a ∈ insertByKey key x l ↔ a = x ∨ a ∈ l := by
  rw [(insertByKey_perm key x l).mem_iff]
  simp

/-- Stable insertion preserves sortedness. -/
theorem insertByKey_pairwise {α : Type _} (key : α → String) (x : α) :
    ∀ l : List α, l.Pairwise (keyLe key) →
      (insertByKey key x l).Pairwise (keyLe key) := by
  intro l
  induction l with
  | nil =>
    intro _
    exact List.pairwise_singleton _ _
  | cons y ys ih =>
    intro hp
    rcases List.pairwise_cons.mp hp with ⟨hy, hp'⟩
    rw [insertByKey]
    cases hlt : jsStrLt (key x) (key y) with
    | true =>
      rw [if_pos rfl]
      refine List.pairwise_cons.mpr ⟨?_, hp⟩
      intro z hz
      rcases List.mem_cons.mp hz with rfl | hz'
      · exact jsStrLt_asymm _ _ hlt
      · have hyz : jsStrLt (key z) (key y) = false := hy z hz'
        cases hzx : jsStrLt (key z) (key x) with
        | false => exact hzx
        | true =>
          have := jsStrLt_trans _ _ _ hzx hlt
          exact absurd this (by simp [hyz])
    | false =>
      rw [if_neg (by simp)]
      refine List.pairwise_cons.mpr ⟨?_, ih hp'⟩
      intro z hz
      rcases (mem_insertByKey key x z ys).mp hz with rfl | hz'
      · exact hlt
      · exact hy z hz'

/-- Stable insertion appends the new element after every element with the
same key: filtering by any key value shows the new element last. -/
theorem insertByKey_filter {α : Type _} (key : α → String) (x : α) (k : String) :
    ∀ l : List α, l.Pairwise (keyLe key) →
      (insertByKey key x l).filter (fun a => decide (key a = k)) =
        l.filter (fun a => decide (key a = k)) ++
          (if key x = k then [x] else []) := by
  intro l
  induction l with
  | nil =>
    intro _
    by_cases h : key x = k <;> simp [insertByKey, List.filter, h]
  | cons y ys ih =>
    intro hp
    rcases List.pairwise_cons.mp hp with ⟨hy, hp'⟩
    rw [insertByKey]
    cases hlt : jsStrLt (key x) (key y) with
    | true =>
      rw [if_pos rfl]
      by_cases hxk : key x = k
      · have hnil : (y :: ys).filter (fun a => decide (key a = k)) = [] := by
          rw [List.filter_eq_nil_iff]
          intro z hz
          simp only [decide_eq_true_eq]
          intro hzk
          have hzy : jsStrLt (key z) (key y) = false := by
            rcases List.mem_cons.mp hz with rfl | hz'
            · exact strLtB_irrefl _
            · exact hy z hz'
          rw [hzk, ← hxk] at hzy
          exact absurd hlt (by simp [hzy])
        rw [List.filter_cons, if_pos (by simp [hxk]), hnil, if_pos hxk]
        rfl
      · rw [List.filter_cons, if_neg (by simp [hxk]), if_neg hxk, List.append_nil]
    | false =>
      rw [if_neg (by simp)]
      rw [List.filter_cons, List.filter_cons, ih hp']
      by_cases hyk : key y = k <;> simp [hyk]

/-- The insertion fold preserves sortedness of the accumulator. -/
theorem sortFold_pairwise {α : Type _} (key : α → String) :
    ∀ (l acc : List α), acc.Pairwise (keyLe key) →
      (l.foldl (fun acc x => insertByKey key x acc) acc).Pairwise (keyLe key) := by
  intro l
  induction l with
  | nil => intro acc h; exact h
  | cons x xs ih =>
    intro acc h
    rw [List.foldl_cons]
    exact ih _ (insertByKey_pairwise key x acc h)

/-- The insertion fold permutes the accumulator and the input. -/
theorem sortFold_perm {α : Type _} (key : α → String) :
    ∀ (l acc : List α),
      (l.foldl (fun acc x => insertByKey key x acc) acc).Perm (acc ++ l) := by
  intro l
  induction l with
  | nil => intro acc; simp
  | cons x xs ih =>
    intro acc
    rw [List.foldl_cons]
    refine (ih (insertByKey key x acc)).trans ?_
    refine (((insertByKey_perm key x acc).append_right xs).trans ?_)
    exact (List.perm_middle).symm

/-- The insertion fold preserves, for every key value, the subsequence of
elements carrying that key, appending the input's in order after the
accumulator's: stability. -/
theorem sortFold_filter {α : Type _} (key : α → String) (k : String) :
    ∀ (l acc : List α), acc.Pairwise (keyLe key) →
      (l.foldl (fun acc x => insertByKey key x acc) acc).filter
          (fun a => decide (key a = k)) =
        acc.filter (fun a => decide (key a = k)) ++
          l.filter (fun a => decide (key a = k)) := by
  intro l
  induction l with
  | nil => intro acc _; simp
  | cons x xs ih =>
    intro acc h
    rw [List.foldl_cons]
    rw [ih _ (insertByKey_pairwise key x acc h)]
    rw [insertByKey_filter key x k acc h]
    rw [List.filter_cons]
    by_cases hxk : key x = k
    · rw [if_pos hxk, if_pos (by simp [hxk]), List.append_assoc]
      rfl
    · rw [if_neg hxk, if_neg (by simp [hxk]), List.append_nil]

/-- The stable sort is sorted by the key order. -/
theorem sortByKey_pairwise {α : Type _} (key : α → String) (l : List α) :
    (sortByKey key l).Pairwise (keyLe key) :=
  sortFold_pairwise key l [] List.Pairwise.nil

/-- The stable sort is a permutation of the input. -/
theorem sortByKey_perm {α : Type _} (key : α → String) (l : List α) :
    (sortByKey key l).Perm l := by
  have h := sortFold_perm key l []
  simpa [sortByKey] using h

/-- The stable sort preserves the relative order of equal-keyed elements:
filtering by any key value gives the same subsequence as in the input. -/
theorem sortByKey_filter {α : Type _} (key : α → String) (k : String) (l : List α) :
    (sortByKey key l).filter (fun a => decide (key a = k)) =
      l.filter (fun a => decide (key a = k)) := by
  have h := sortFold_filter key k l [] List.Pairwise.nil
  simpa [sortByKey] using h

/-- C4: the display ordering sorts the groups ascending by `req_title_id`
and each group's test cases ascending by `tc_id`, both lexicographic
string comparisons; the sort is stable at both levels (for every key value
the matching elements keep their input order) and is a permutation of the
input with inner-sorted groups. -/
theorem sortedTestCases_ordering (gs : List GroupedRequirement) :
    (sortedTestCases gs).Pairwise
      (fun a b => jsStrLt b.req_title_id a.req_title_id = false) ∧
    (∀ g ∈ sortedTestCases gs,
      g.test_cases.Pairwise (fun a b => jsStrLt b.tc_id a.tc_id = false)) ∧
    (sortedTestCases gs).Perm (gs.map sortGroupTestCases) ∧
    (∀ t, (sortedTestCases gs).filter (fun g => decide (g.req_title_id = t)) =
      (gs.filter (fun g => decide (g.req_title_id = t))).map sortGroupTestCases) ∧
    (∀ g ∈ sortedTestCases gs, ∃ g0 ∈ gs, g = sortGroupTestCases g0 ∧
      ∀ k, g.test_cases.filter (fun tc => decide (tc.tc_id = k)) =
        g0.test_cases.filter (fun tc => decide (tc.tc_id = k))) := by
  have hkey : ∀ g, (sortGroupTestCases g).req_title_id = g.req_title_id := fun _ => rfl
  refine ⟨?_, ?_, ?_, ?_, ?_⟩
  · rw [sortedTestCases, List.pairwise_map]
    exact sortByKey_pairwise (fun g => g.req_title_id) gs
  · intro g hg
    rcases List.mem_map.mp hg with ⟨g0, _, rfl⟩
    exact sortByKey_pairwise (fun tc => tc.tc_id) g0.test_cases
  · rw [sortedTestCases]
    exact (sortByKey_perm (fun g => g.req_title_id) gs).map sortGroupTestCases
  · intro t
    rw [sortedTestCases]
    rw [List.filter_map]
    have hcomp :
        ((fun g : GroupedRequirement => decide (g.req_title_id = t)) ∘ sortGroupTestCases) =
          (fun g : GroupedRequirement => decide (g.req_title_id = t)) := by
      funext g
      rfl
    rw [hcomp, sortByKey_filter]
  · intro g hg
    rcases List.mem_map.mp hg with ⟨g0, hg0, rfl⟩
    refine ⟨g0, (sortByKey_perm (fun g => g.req_title_id) gs).mem_iff.mp hg0, rfl, ?_⟩
    intro k
    exact sortByKey_filter (fun tc => tc.tc_id) k g0.test_cases

/-- Instantiation of the C4 theorem: groups titled `[R2, R1]` display as
`[R1, R2]`, and test-case ids `[TC-2, TC-10]` display as
`[TC-10, TC-2]` — lexicographic, not numeric — while equal-keyed elements
keep their input order. -/
theorem sortedTestCases_ordering_witness :
    (sortGroupTestCases groupR1).test_cases.Pairwise
      (fun a b => jsStrLt b.tc_id a.tc_id = false) ∧
    sortedTestCases [groupR2, groupR1] =
      [sortGroupTestCases groupR1, sortGroupTestCases groupR2] ∧
    (sortGroupTestCases groupR1).test_cases = [tcTen, tcTwo] :=
  ⟨(sortedTestCases_ordering [groupR2, groupR1]).2.1 (sortGroupTestCases groupR1)
      (by decide),
   by decide, by decide⟩

/-- Instantiation of the C10 theorem: a concrete sequence of toggles and a
select-all keeps the selection distinct, and evaluates to the expected
selection. -/
theorem selection_nodup_invariant_witness :
    (runSelOps [SelOp.toggle "R1", SelOp.toggle "R2", SelOp.toggle "R1",
        SelOp.selectAll ["R1", "R2"]]).Nodup ∧
    runSelOps [SelOp.toggle "R1", SelOp.toggle "R2", SelOp.toggle "R1",
        SelOp.selectAll ["R1", "R2"]] = ["R1", "R2"] :=
  ⟨(selection_nodup_invariant [SelOp.toggle "R1", SelOp.toggle "R2", SelOp.toggle "R1",
      SelOp.selectAll ["R1", "R2"]]
      (by
        intro ids hmem
        simp only [List.mem_cons, List.not_mem_nil, or_false] at hmem
        rcases hmem with h | h | h | h
        · exact absurd h (by simp)
        · exact absurd h (by simp)
        · exact absurd h (by simp)
        · injection h with h'
          subst h'
          decide)).1,
   by decide⟩

end BlueSync
